import Mathlib

/-!
Verification of the quartic extension field core (`field/src/extension/quartic.rs`)
of the plonky2 repository, together with the batch-inversion routine its bench
harness exercises.

The base field is modelled as an arbitrary `Field F` (the Rust code is generic
over `F: Extendable<4>`); the two trait constants `W` (the binomial non-residue
defining the extension `F[x]/(x^4 - W)`) and `DTH_ROOT` (written `r` here) are
explicit parameters.  A quartic extension element is the 4-tuple of base-field
coefficients from the source's `pub struct QuarticExtension<F>(pub [F; 4])`.
-/

namespace Plonky2

/-- An element of the quartic extension: the coefficient tuple `[a0, a1, a2, a3]`
representing `a0 + a1 x + a2 x^2 + a3 x^3` modulo `x^4 - W`
(source: `pub struct QuarticExtension<F: Extendable<4>>(pub [F; 4]);`). -/
@[ext]
structure QuarticExtension (F : Type) where
  c0 : F
  c1 : F
  c2 : F
  c3 : F
deriving DecidableEq

namespace QuarticExtension

variable {F : Type} [Field F]

/-- `const ZERO: Self = Self([F::ZERO; 4]);` -/
def ZERO : QuarticExtension F := ⟨0, 0, 0, 0⟩

/-- `const ONE: Self = Self([F::ONE, F::ZERO, F::ZERO, F::ZERO]);` -/
def ONE : QuarticExtension F := ⟨1, 0, 0, 0⟩

/-- `const TWO_ADICITY: usize = F::TWO_ADICITY + 2;` as a function of the base
field's two-adicity. -/
def TWO_ADICITY (baseTwoAdicity : Nat) : Nat := baseTwoAdicity + 2

/-- Componentwise addition (`impl Add for QuarticExtension`). -/
def add (a b : QuarticExtension F) : QuarticExtension F :=
  ⟨a.c0 + b.c0, a.c1 + b.c1, a.c2 + b.c2, a.c3 + b.c3⟩

/-- Componentwise negation (`impl Neg for QuarticExtension`). -/
def neg (a : QuarticExtension F) : QuarticExtension F :=
  ⟨-a.c0, -a.c1, -a.c2, -a.c3⟩

/-- Componentwise subtraction (`impl Sub for QuarticExtension`). -/
def sub (a b : QuarticExtension F) : QuarticExtension F :=
  ⟨a.c0 - b.c0, a.c1 - b.c1, a.c2 - b.c2, a.c3 - b.c3⟩

/-- `Mul::mul` for the quartic extension, transcribed from the implementation
body (the `c0 ... c3` bindings at lines 248-251 of `quartic.rs`). -/
def mul (W : F) (a b : QuarticExtension F) : QuarticExtension F :=
  ⟨a.c0 * b.c0 + W * (a.c1 * b.c3 + a.c2 * b.c2 + a.c3 * b.c1),
   a.c0 * b.c1 + a.c1 * b.c0 + W * (a.c2 * b.c3 + a.c3 * b.c2),
   a.c0 * b.c2 + a.c1 * b.c1 + a.c2 * b.c0 + W * a.c3 * b.c3,
   a.c0 * b.c3 + a.c1 * b.c2 + a.c2 * b.c1 + a.c3 * b.c0⟩

/-- `Square::square` for the quartic extension, transcribed from `quartic.rs`
lines 266-276; the base field's `x.square()` is `x * x` and `x.double()` is
`x + x`. -/
def square (W : F) (a : QuarticExtension F) : QuarticExtension F :=
  ⟨a.c0 * a.c0 + W * (a.c1 * (a.c3 + a.c3) + a.c2 * a.c2),
   (a.c0 * a.c1 + W * a.c2 * a.c3) + (a.c0 * a.c1 + W * a.c2 * a.c3),
   a.c0 * (a.c2 + a.c2) + a.c1 * a.c1 + W * (a.c3 * a.c3),
   (a.c0 * a.c3 + a.c1 * a.c2) + (a.c0 * a.c3 + a.c1 * a.c2)⟩

/-- Modelled from the spec: the `Frobenius` trait's `frobenius` (its default
body lives outside `src/`).  Spec 4.2: the base-field-linear map sending the
element `[a0, a1, a2, a3]` to `[a0, a1 * r, a2 * r^2, a3 * r^3]` where
`r = DTH_ROOT`. -/
def frobenius (r : F) (a : QuarticExtension F) : QuarticExtension F :=
  ⟨a.c0, a.c1 * r, a.c2 * r ^ 2, a.c3 * r ^ 3⟩

/-- Modelled from the spec: the `Frobenius` trait's `repeated_frobenius`
(its default body lives outside `src/`).  Spec 4.2: `e^{p^k}` computed by
precomputing the power `r^k` of `DTH_ROOT` and scaling the basis monomial
`x^i` by `(r^k)^i`. -/
def repeated_frobenius (r : F) (k : Nat) (a : QuarticExtension F) :
    QuarticExtension F :=
  ⟨a.c0, a.c1 * r ^ k, a.c2 * (r ^ k) ^ 2, a.c3 * (r ^ k) ^ 3⟩

/-- Modelled from the spec: `FieldExtension::is_in_basefield` (declared outside
`src/`).  Spec 6: predicate true iff all non-constant coefficients are zero. -/
def is_in_basefield [DecidableEq F] (a : QuarticExtension F) : Bool :=
  a.c1 = 0 && a.c2 = 0 && a.c3 = 0

/-- Modelled from the spec: `FieldExtension::scalar_mul` (declared outside
`src/`).  Spec 4.4 step 7: scalar multiply every coefficient by `s`. -/
def scalar_mul (a : QuarticExtension F) (s : F) : QuarticExtension F :=
  ⟨a.c0 * s, a.c1 * s, a.c2 * s, a.c3 * s⟩

/-- The intermediate `a_pow_r_minus_1` of `Field::try_inverse`
(`quartic.rs` lines 98-101):
`a_pow_p = self.frobenius(); a_pow_p_plus_1 = a_pow_p * self;`
`a_pow_p3_plus_p2 = a_pow_p_plus_1.repeated_frobenius(2);`
`a_pow_r_minus_1 = a_pow_p3_plus_p2 * a_pow_p`. -/
def a_pow_r_minus_1 (W r : F) (a : QuarticExtension F) : QuarticExtension F :=
  mul W (repeated_frobenius r 2 (mul W (frobenius r a) a)) (frobenius r a)

/-- The norm value `a_pow_r = a_pow_r_minus_1 * self` of `Field::try_inverse`
(`quartic.rs` line 102). -/
def a_pow_r (W r : F) (a : QuarticExtension F) : QuarticExtension F :=
  mul W (a_pow_r_minus_1 W r a) a

/-- `Field::try_inverse` (`quartic.rs` lines 93-109), with the intermediate
`let` chain factored through `a_pow_r_minus_1` and `a_pow_r` above.  The base
field's `inverse()` is Mathlib's total `⁻¹` (the hypotheses of the theorems
below guarantee it is only reached at a non-zero argument, matching the Rust
code where `inverse()` would panic on zero). -/
def try_inverse [DecidableEq F] (W r : F) (a : QuarticExtension F) :
    Option (QuarticExtension F) :=
  if a = ZERO then none
  else some (scalar_mul (a_pow_r_minus_1 W r a) ((a_pow_r W r a).c0)⁻¹)

/-- `Div::div` (`quartic.rs` lines 285-292): `self * rhs.inverse()`.  The
`Field::inverse` helper (declared outside `src/`) unwraps `try_inverse` and
panics on `None`; that partiality is modelled by returning an `Option`. -/
def div [DecidableEq F] (W r : F) (a b : QuarticExtension F) :
    Option (QuarticExtension F) :=
  (try_inverse W r b).map (fun binv => mul W a binv)

/-- Coefficient `k` of an element viewed as a polynomial of degree at most 3
(zero beyond index 3); used only to state the spec-side multiplication. -/
def coeff (a : QuarticExtension F) (k : Nat) : F :=
  if k = 0 then a.c0
  else if k = 1 then a.c1
  else if k = 2 then a.c2
  else if k = 3 then a.c3
  else 0

/-- Coefficient `k` of the unreduced degree-6 polynomial product of `a` and
`b`; used only to state the spec-side multiplication. -/
def prodCoeff (a b : QuarticExtension F) (k : Nat) : F :=
  ∑ i ∈ Finset.range (k + 1), coeff a i * coeff b (k - i)

/-- Spec-side multiplication (spec 4.3): perform the degree-6 polynomial
multiplication, then fold the terms of degree `>= 4` back using `x^4 ≡ W`. -/
def mul_via_poly_reduction (W : F) (a b : QuarticExtension F) :
    QuarticExtension F :=
  ⟨prodCoeff a b 0 + W * prodCoeff a b 4,
   prodCoeff a b 1 + W * prodCoeff a b 5,
   prodCoeff a b 2 + W * prodCoeff a b 6,
   prodCoeff a b 3⟩

/-- `Mul::mul`'s body over an arbitrary carrier with multiplication and
addition; instantiating the carrier at the base field recovers `mul`, and
instantiating it at the operation counter below counts the base-field
multiplications the formula performs. -/
def mulBody {R : Type} [Mul R] [Add R] (W a0 a1 a2 a3 b0 b1 b2 b3 : R) :
    R × R × R × R :=
  (a0 * b0 + W * (a1 * b3 + a2 * b2 + a3 * b1),
   a0 * b1 + a1 * b0 + W * (a2 * b3 + a3 * b2),
   a0 * b2 + a1 * b1 + a2 * b0 + W * a3 * b3,
   a0 * b3 + a1 * b2 + a2 * b1 + a3 * b0)

/-- The ten generic products `i0, i1, i2, i3, A, B, C, D, E, F` of the
Karatsuba-style reformulation documented in the comment block of `Mul::mul`
(`quartic.rs` lines 216-232). -/
def karatsubaStage1 {R : Type} [Mul R] [Add R] (a0 a1 a2 a3 b0 b1 b2 b3 : R) :
    R × R × R × R × R × R × R × R × R × R :=
  (a0 * b0, a1 * b1, a2 * b2, a3 * b3,
   (a0 + a1) * (b0 + b1), (a2 + a3) * (b2 + b3),
   (a0 + a2) * (b0 + b2), (a1 + a3) * (b1 + b3),
   (a0 + a3) * (b0 + b3), (a1 + a2) * (b1 + b2))

/-- The folding stage of the documented Karatsuba-style reformulation
(`quartic.rs` lines 234-241): combine the ten shared products into the four
output coefficients, multiplying by `w` three times. -/
def karatsubaStage2 {R : Type} [Mul R] [Add R] [Sub R] (w : R)
    (t : R × R × R × R × R × R × R × R × R × R) : R × R × R × R :=
  match t with
  | (i0, i1, i2, i3, A, B, C, D, E, Fv) =>
    (i0 + (D - i1 - i3 + i2) * w,
     A - i0 - i1 + (B - i2 - i3) * w,
     C - i0 - i2 + i1 + i3 * w,
     E - i0 - i3 + (Fv - i1 - i2))

/-- The Karatsuba-style multiplication documented (but not implemented) in the
comment block of `Mul::mul`: the ten shared generic products followed by the
folding stage. -/
def karatsubaMul (W : F) (a b : QuarticExtension F) : QuarticExtension F :=
  match karatsubaStage2 W
      (karatsubaStage1 a.c0 a.c1 a.c2 a.c3 b.c0 b.c1 b.c2 b.c3) with
  | (c0, c1, c2, c3) => ⟨c0, c1, c2, c3⟩

end QuarticExtension

/-- Multiplication counter: a value of this type records how many base-field
multiplications were performed to produce it (free variables cost 0). -/
structure OpCount where
  muls : Nat
deriving DecidableEq

instance : Mul OpCount := ⟨fun x y => ⟨x.muls + y.muls + 1⟩⟩

instance : Add OpCount := ⟨fun x y => ⟨x.muls + y.muls⟩⟩

instance : Sub OpCount := ⟨fun x y => ⟨x.muls + y.muls⟩⟩

/-- A cost-free atom (an input coefficient, the constant `W`, or an already
computed intermediate). -/
def opAtom : OpCount := ⟨0⟩

/-- Number of base-field multiplications performed by the implemented
`Mul::mul` body (its expressions share no subterms, so the value
interpretation over `OpCount` counts each `*` exactly once). -/
def mulOpCount : Nat :=
  match QuarticExtension.mulBody opAtom opAtom opAtom opAtom opAtom opAtom
      opAtom opAtom opAtom with
  | (c0, c1, c2, c3) => c0.muls + c1.muls + c2.muls + c3.muls

/-- Number of generic base-field products in the documented Karatsuba
reformulation's first stage. -/
def karatsubaStage1OpCount : Nat :=
  match QuarticExtension.karatsubaStage1 opAtom opAtom opAtom opAtom opAtom
      opAtom opAtom opAtom (R := OpCount) with
  | (i0, i1, i2, i3, A, B, C, D, E, Fv) =>
    i0.muls + i1.muls + i2.muls + i3.muls + A.muls + B.muls + C.muls +
      D.muls + E.muls + Fv.muls

/-- Total number of base-field multiplications performed by the documented
Karatsuba reformulation: the ten shared products of the first stage plus the
multiplications of the folding stage (whose inputs are already computed,
hence cost-free atoms). -/
def karatsubaOpCount : Nat :=
  karatsubaStage1OpCount +
    match QuarticExtension.karatsubaStage2 opAtom
        (opAtom, opAtom, opAtom, opAtom, opAtom, opAtom, opAtom, opAtom,
          opAtom, opAtom) with
    | (c0, c1, c2, c3) => c0.muls + c1.muls + c2.muls + c3.muls

variable {F : Type} [Field F] [DecidableEq F]

/-- Modelled from the spec: `Field::batch_multiplicative_inverse` (declared
outside `src/`; only its bench call site is in the sources).  Spec 4.5,
Montgomery's trick: descend forward accumulating the running product `a` of
the non-zero entries (zero entries are skipped), invert the total product once
at the end of the list, then walk backward distributing the inverted product:
a zero entry maps to zero, a non-zero entry `x` maps to `a * s` where `s` is
the inverse of the product of `a`, `x` and the later non-zero entries divided
back out entry by entry (`s * x` is passed back up). -/
def batchInvGo (a : F) : List F → F × List F
  | [] => (a⁻¹, [])
  | x :: xs =>
    if x = 0 then
      let p := batchInvGo a xs
      (p.1, 0 :: p.2)
    else
      let p := batchInvGo (a * x) xs
      (p.1 * x, (a * p.1) :: p.2)

/-- Modelled from the spec: the entry point of batch inversion, starting the
running product at one. -/
def batch_multiplicative_inverse (xs : List F) : List F :=
  (batchInvGo 1 xs).2

instance fact_prime_five : Fact (Nat.Prime 5) := ⟨by norm_num⟩

namespace QuarticExtension

variable {F : Type} [Field F]

theorem mul_commQ (W : F) (a b : QuarticExtension F) :
    mul W a b = mul W b a := by
  ext <;> simp [mul] <;> ring

theorem mul_assocQ (W : F) (a b c : QuarticExtension F) :
    mul W (mul W a b) c = mul W a (mul W b c) := by
  ext <;> simp [mul] <;> ring

theorem mul_oneQ (W : F) (a : QuarticExtension F) : mul W a ONE = a := by
  ext <;> simp [mul, ONE]

theorem mul_scalarQ (W : F) (a b : QuarticExtension F) (s : F) :
    mul W a (scalar_mul b s) = scalar_mul (mul W a b) s := by
  ext <;> simp [mul, scalar_mul] <;> ring

theorem frob_mulQ (W r : F) (a b : QuarticExtension F) (hr4 : r ^ 4 = 1) :
    frobenius r (mul W a b) = mul W (frobenius r a) (frobenius r b) := by
  ext
  · simp only [frobenius, mul]
    linear_combination (-(W * (a.c1 * b.c3 + a.c2 * b.c2 + a.c3 * b.c1))) * hr4
  · simp only [frobenius, mul]
    linear_combination (-(W * (a.c2 * b.c3 + a.c3 * b.c2) * r)) * hr4
  · simp only [frobenius, mul]
    linear_combination (-(W * a.c3 * b.c3 * r ^ 2)) * hr4
  · simp only [frobenius, mul]
    ring

theorem rf_twoQ (r : F) (a : QuarticExtension F) :
    repeated_frobenius r 2 a = frobenius r (frobenius r a) := by
  ext <;> simp [repeated_frobenius, frobenius] <;> ring

theorem frob_fourQ (r : F) (a : QuarticExtension F) (hr4 : r ^ 4 = 1) :
    frobenius r (frobenius r (frobenius r (frobenius r a))) = a := by
  ext
  · rfl
  · simp only [frobenius]
    linear_combination a.c1 * hr4
  · simp only [frobenius]
    linear_combination a.c2 * (r ^ 4 + 1) * hr4
  · simp only [frobenius]
    linear_combination a.c3 * (r ^ 8 + r ^ 4 + 1) * hr4

theorem mul_rotQ (W : F) (x y z t : QuarticExtension F) :
    mul W (mul W (mul W x y) z) t = mul W (mul W (mul W t x) y) z := by
  ext <;> simp [mul] <;> ring

theorem a_pow_r_eqQ (W r : F) (a : QuarticExtension F) (hr4 : r ^ 4 = 1) :
    a_pow_r W r a =
      mul W (mul W (mul W (frobenius r (frobenius r (frobenius r a)))
        (frobenius r (frobenius r a))) (frobenius r a)) a := by
  rw [a_pow_r, a_pow_r_minus_1, rf_twoQ, frob_mulQ W r _ _ hr4,
    frob_mulQ W r _ _ hr4]

theorem frob_fixQ (W r : F) (a : QuarticExtension F) (hr4 : r ^ 4 = 1) :
    frobenius r (a_pow_r W r a) = a_pow_r W r a := by
  rw [a_pow_r_eqQ W r a hr4, frob_mulQ W r _ _ hr4, frob_mulQ W r _ _ hr4,
    frob_mulQ W r _ _ hr4, frob_fourQ r a hr4]
  exact (mul_rotQ W _ _ _ _).symm

theorem fixed_scale_eq_zero {x t : F} (h : x * t = x) (ht : t ≠ 1) : x = 0 := by
  have h0 : x * (t - 1) = 0 := by linear_combination h
  rcases mul_eq_zero.mp h0 with hx | ht1
  · exact hx
  · exact absurd (sub_eq_zero.mp ht1) ht

theorem norm_coeffsQ (W r : F) (a : QuarticExtension F) (hr4 : r ^ 4 = 1)
    (hr1 : r ≠ 1) (hr2 : r ^ 2 ≠ 1) :
    (a_pow_r W r a).c1 = 0 ∧ (a_pow_r W r a).c2 = 0 ∧ (a_pow_r W r a).c3 = 0 := by
  have h := frob_fixQ W r a hr4
  have hr3 : r ^ 3 ≠ 1 := by
    intro h3
    apply hr1
    have hr : r = r ^ 4 := by rw [pow_succ, h3, one_mul]
    rw [hr, hr4]
  refine ⟨?_, ?_, ?_⟩
  · have h1 : (a_pow_r W r a).c1 * r = (a_pow_r W r a).c1 := congrArg c1 h
    exact fixed_scale_eq_zero h1 hr1
  · have h2 : (a_pow_r W r a).c2 * r ^ 2 = (a_pow_r W r a).c2 := congrArg c2 h
    exact fixed_scale_eq_zero h2 hr2
  · have h3 : (a_pow_r W r a).c3 * r ^ 3 = (a_pow_r W r a).c3 := congrArg c3 h
    exact fixed_scale_eq_zero h3 hr3

theorem try_inverse_correctQ [DecidableEq F] (W r : F)
    (a : QuarticExtension F) (hr4 : r ^ 4 = 1) (hr1 : r ≠ 1) (hr2 : r ^ 2 ≠ 1)
    (hnorm : (a_pow_r W r a).c0 ≠ 0) :
    mul W a (scalar_mul (a_pow_r_minus_1 W r a) ((a_pow_r W r a).c0)⁻¹) =
      ONE := by
  obtain ⟨h1, h2, h3⟩ := norm_coeffsQ W r a hr4 hr1 hr2
  rw [mul_scalarQ, mul_commQ]
  show scalar_mul (a_pow_r W r a) _ = ONE
  ext
  · exact mul_inv_cancel₀ hnorm
  · show (a_pow_r W r a).c1 * _ = _
    rw [h1, zero_mul]
    rfl
  · show (a_pow_r W r a).c2 * _ = _
    rw [h2, zero_mul]
    rfl
  · show (a_pow_r W r a).c3 * _ = _
    rw [h3, zero_mul]
    rfl

theorem try_inverse_oneQ [DecidableEq F] (W r : F) :
    try_inverse W r (ONE : QuarticExtension F) = some ONE := by
  have hne : (ONE : QuarticExtension F) ≠ ZERO := by
    intro h
    exact one_ne_zero (congrArg c0 h)
  rw [try_inverse, if_neg hne]
  have harm : a_pow_r_minus_1 W r (ONE : QuarticExtension F) = ONE := by
    ext <;> simp [a_pow_r_minus_1, mul, frobenius, repeated_frobenius, ONE]
  have hnorm : a_pow_r W r (ONE : QuarticExtension F) = ONE := by
    rw [a_pow_r, harm, mul_oneQ]
  rw [harm, hnorm]
  show some (scalar_mul ONE (1 : F)⁻¹) = some ONE
  rw [inv_one]
  congr 1
  ext <;> simp [scalar_mul, ONE]

end QuarticExtension

theorem batchInvGo_spec {F : Type} [Field F] [DecidableEq F] (xs : List F) :
    ∀ a : F, a ≠ 0 →
      (batchInvGo a xs).1 = a⁻¹ ∧
      (batchInvGo a xs).2 = xs.map (fun x => if x = 0 then 0 else x⁻¹) := by
  induction xs with
  | nil => exact fun a _ => ⟨rfl, rfl⟩
  | cons x xs ih =>
    intro a ha
    by_cases hx : x = 0
    · subst hx
      obtain ⟨h1, h2⟩ := ih a ha
      simp only [batchInvGo, if_pos rfl, List.map_cons, if_true]
      exact ⟨h1, by rw [h2]⟩
    · have hax : a * x ≠ 0 := mul_ne_zero ha hx
      obtain ⟨h1, h2⟩ := ih (a * x) hax
      simp only [batchInvGo, if_neg hx, List.map_cons]
      constructor
      · rw [h1, mul_inv, mul_assoc, inv_mul_cancel₀ hx, mul_one]
      · rw [h1, h2, mul_inv, ← mul_assoc, mul_inv_cancel₀ ha, one_mul]

namespace QuarticExtension

/-- Claim C1: for all quartic extension elements `a = [a0,a1,a2,a3]` and
`b = [b0,b1,b2,b3]`, `mul(a, b)` equals the degree-6 polynomial product of `a`
and `b` reduced modulo `x^4 - W` (so its coefficients are exactly
`c0 = a0 b0 + W (a1 b3 + a2 b2 + a3 b1)`,
`c1 = a0 b1 + a1 b0 + W (a2 b3 + a3 b2)`,
`c2 = a0 b2 + a1 b1 + a2 b0 + W a3 b3`,
`c3 = a0 b3 + a1 b2 + a2 b1 + a3 b0`); `mul` is a total function on all pairs
of elements, zero and one included. -/
theorem mul_eq_poly_reduction {F : Type} [Field F] (W : F)
    (a b : QuarticExtension F) :
    mul W a b = mul_via_poly_reduction W a b := by
  ext <;>
    simp [mul, mul_via_poly_reduction, prodCoeff, Finset.sum_range_succ,
      coeff] <;>
    ring

/-- Claim C4: for every quartic extension element `a`, `square(a)` is
bit-for-bit equal to `mul(a, a)`: the specialized squaring formula produces
exactly the same coefficient tuple as the generic multiplication formula, for
all inputs including zero and one. -/
theorem square_eq_mul_self {F : Type} [Field F] (W : F)
    (a : QuarticExtension F) :
    square W a = mul W a a := by
  ext <;> (simp only [square, mul]; ring)

/-- Claim C6: the quartic extension satisfies the field axioms: addition and
multiplication are associative, multiplication distributes over addition,
`ZERO = [0,0,0,0]` is the additive identity, `ONE = [1,0,0,0]` is the
multiplicative identity, and `a + (-a) = ZERO`. -/
theorem quartic_field_laws {F : Type} [Field F] (W : F)
    (a b c : QuarticExtension F) :
    add a (add b c) = add (add a b) c ∧
    mul W a (mul W b c) = mul W (mul W a b) c ∧
    mul W a (add b c) = add (mul W a b) (mul W a c) ∧
    add a ZERO = a ∧
    mul W a ONE = a ∧
    add a (neg a) = ZERO ∧
    (ZERO : QuarticExtension F) = ⟨0, 0, 0, 0⟩ ∧
    (ONE : QuarticExtension F) = ⟨1, 0, 0, 0⟩ := by
  refine ⟨?_, ?_, ?_, ?_, ?_, ?_, rfl, rfl⟩ <;>
    ext <;> simp [add, mul, neg, ZERO, ONE] <;> ring

end QuarticExtension

/-- Claim C8: for every input sequence of field elements, batch inversion
returns a sequence of the same length whose entry at each position equals
`inverse(x)` when the input entry `x` is non-zero and equals zero when the
input entry is zero (zero entries are fixed points, not errors); an empty
input returns an empty sequence. -/
theorem batch_multiplicative_inverse_spec {F : Type} [Field F] [DecidableEq F]
    (xs : List F) :
    batch_multiplicative_inverse xs =
      xs.map (fun x => if x = 0 then 0 else x⁻¹) ∧
    (batch_multiplicative_inverse xs).length = xs.length ∧
    batch_multiplicative_inverse ([] : List F) = [] := by
  have h := (batchInvGo_spec xs 1 one_ne_zero).2
  refine ⟨h, ?_, rfl⟩
  show (batchInvGo 1 xs).2.length = xs.length
  rw [h, List.length_map]

namespace QuarticExtension

/-- Claim C3: for every non-zero quartic extension element `a` (over a
well-formed configuration, where `DTH_ROOT = r` is a primitive fourth root of
unity), the norm value `a_pow_r = a_pow_r_minus_1 * a` computed in step 5 of
`try_inverse` lies entirely in the base field: its coefficients at indices 1,
2 and 3 are exactly zero, so the debug assertion `is_in_basefield(a_pow_r)`
in `try_inverse` can never fail. -/
theorem norm_in_basefield {F : Type} [Field F] [DecidableEq F] (W r : F)
    (hr4 : r ^ 4 = 1) (hr1 : r ≠ 1) (hr2 : r ^ 2 ≠ 1)
    (a : QuarticExtension F) (_ha : a ≠ ZERO) :
    is_in_basefield (a_pow_r W r a) = true := by
  obtain ⟨h1, h2, h3⟩ := norm_coeffsQ W r a hr4 hr1 hr2
  simp [is_in_basefield, h1, h2, h3]

/-- Witness for C3 at `F = ZMod 5`, `W = 2`, `r = 2` (a primitive fourth root
of unity mod 5), `a = [1,1,0,0]`. -/
theorem norm_in_basefield_witness :
    (2 : ZMod 5) ^ 4 = 1 ∧ (2 : ZMod 5) ≠ 1 ∧ (2 : ZMod 5) ^ 2 ≠ 1 ∧
    (⟨1, 1, 0, 0⟩ : QuarticExtension (ZMod 5)) ≠ ZERO ∧
    is_in_basefield (a_pow_r (2 : ZMod 5) 2 ⟨1, 1, 0, 0⟩) = true :=
  ⟨by decide, by decide, by decide, by decide,
    norm_in_basefield 2 2 (by decide) (by decide) (by decide) ⟨1, 1, 0, 0⟩
      (by decide)⟩

/-- Claim C2: for every quartic extension element `a` (over a well-formed
configuration): if `a` is non-zero then `try_inverse(a)` returns a present
value `b` with `a * b = ONE`; `try_inverse(ONE) = Some(ONE)`; and
`try_inverse(ZERO)` returns the absent value `None`, never an exception. -/
theorem try_inverse_spec {F : Type} [Field F] [DecidableEq F] (W r : F)
    (hr4 : r ^ 4 = 1) (hr1 : r ≠ 1) (hr2 : r ^ 2 ≠ 1)
    (a : QuarticExtension F) (ha : a ≠ ZERO)
    (hnorm : (a_pow_r W r a).c0 ≠ 0) :
    (∃ b, try_inverse W r a = some b ∧ mul W a b = ONE) ∧
    try_inverse W r (ONE : QuarticExtension F) = some ONE ∧
    try_inverse W r (ZERO : QuarticExtension F) = none := by
  refine ⟨⟨scalar_mul (a_pow_r_minus_1 W r a) ((a_pow_r W r a).c0)⁻¹, ?_, ?_⟩,
    try_inverse_oneQ W r, ?_⟩
  · rw [try_inverse, if_neg ha]
  · exact try_inverse_correctQ W r a hr4 hr1 hr2 hnorm
  · rw [try_inverse, if_pos rfl]

/-- Witness for C2 at `F = ZMod 5`, `W = 2`, `r = 2`, `a = [1,1,0,0]`. -/
theorem try_inverse_spec_witness :
    (2 : ZMod 5) ^ 4 = 1 ∧ (2 : ZMod 5) ≠ 1 ∧ (2 : ZMod 5) ^ 2 ≠ 1 ∧
    (⟨1, 1, 0, 0⟩ : QuarticExtension (ZMod 5)) ≠ ZERO ∧
    (a_pow_r (2 : ZMod 5) 2 ⟨1, 1, 0, 0⟩).c0 ≠ 0 ∧
    ((∃ b, try_inverse (2 : ZMod 5) 2 ⟨1, 1, 0, 0⟩ = some b ∧
        mul 2 ⟨1, 1, 0, 0⟩ b = ONE) ∧
      try_inverse (2 : ZMod 5) 2 ONE = some ONE ∧
      try_inverse (2 : ZMod 5) 2 ZERO = none) :=
  ⟨by decide, by decide, by decide, by decide, by decide,
    try_inverse_spec 2 2 (by decide) (by decide) (by decide) ⟨1, 1, 0, 0⟩
      (by decide) (by decide)⟩

/-- Claim C5: the Frobenius operator on quartic extension elements is a ring
homomorphism and its iterates compose: `frobenius(a+b)` is
`frobenius(a) + frobenius(b)`, `frobenius(a*b)` is
`frobenius(a) * frobenius(b)`, and
`repeated_frobenius(a, j+k) = repeated_frobenius(repeated_frobenius(a,j), k)`
(`r = DTH_ROOT` being a fourth root of unity, as in any well-formed
configuration). -/
theorem frobenius_hom_spec {F : Type} [Field F] (W r : F) (hr4 : r ^ 4 = 1)
    (a b : QuarticExtension F) (j k : Nat) :
    frobenius r (add a b) = add (frobenius r a) (frobenius r b) ∧
    frobenius r (mul W a b) = mul W (frobenius r a) (frobenius r b) ∧
    repeated_frobenius r (j + k) a =
      repeated_frobenius r k (repeated_frobenius r j a) := by
  refine ⟨?_, frob_mulQ W r a b hr4, ?_⟩
  · ext <;> simp only [frobenius, add] <;> ring
  · ext <;> simp only [repeated_frobenius, pow_add] <;> ring

/-- Witness for C5 at `F = ZMod 5`, `W = 3`, `r = 2`, `j = 1`, `k = 2`. -/
theorem frobenius_hom_spec_witness :
    (2 : ZMod 5) ^ 4 = 1 ∧
    (frobenius (2 : ZMod 5) (add ⟨1, 2, 3, 4⟩ ⟨0, 1, 0, 1⟩) =
        add (frobenius 2 ⟨1, 2, 3, 4⟩) (frobenius 2 ⟨0, 1, 0, 1⟩) ∧
      frobenius (2 : ZMod 5) (mul 3 ⟨1, 2, 3, 4⟩ ⟨0, 1, 0, 1⟩) =
        mul 3 (frobenius 2 ⟨1, 2, 3, 4⟩) (frobenius 2 ⟨0, 1, 0, 1⟩) ∧
      repeated_frobenius (2 : ZMod 5) (1 + 2) ⟨1, 2, 3, 4⟩ =
        repeated_frobenius 2 2 (repeated_frobenius 2 1 ⟨1, 2, 3, 4⟩)) :=
  ⟨by decide,
    frobenius_hom_spec 3 2 (by decide) ⟨1, 2, 3, 4⟩ ⟨0, 1, 0, 1⟩ 1 2⟩

/-- Claim C7: the two-adicity of the degree-4 extension exceeds the base
field's two-adicity by exactly 2: `TWO_ADICITY` of the quartic extension
equals the base `TWO_ADICITY + 2`, and this matches the largest power of 2
dividing the multiplicative-group order `p^4 - 1` (for a base prime
`p = 2^t * m + 1` of two-adicity `t >= 2`, `p^4 - 1` is `2^(t+2)` times an
odd number). -/
theorem two_adicity_spec (p t m : Nat) (ht : 2 ≤ t) (hm : m % 2 = 1)
    (hp : p = 2 ^ t * m + 1) :
    TWO_ADICITY t = t + 2 ∧
    ∃ k, k % 2 = 1 ∧ p ^ 4 - 1 = 2 ^ TWO_ADICITY t * k := by
  obtain ⟨s, rfl⟩ : ∃ s, t = s + 2 := ⟨t - 2, by omega⟩
  have hmul : ∀ x y : Nat, x % 2 = 1 → y % 2 = 1 → x * y % 2 = 1 := by
    intro x y hx hy
    rw [Nat.mul_mod, hx, hy]
  have hA : (2 ^ (s + 1) * m + 1) % 2 = 1 := by
    have h : 2 ^ (s + 1) * m + 1 = 2 * (2 ^ s * m) + 1 := by ring
    rw [h]
    omega
  have hB : (2 ^ (2 * s + 3) * m ^ 2 + 2 ^ (s + 2) * m + 1) % 2 = 1 := by
    have h : 2 ^ (2 * s + 3) * m ^ 2 + 2 ^ (s + 2) * m + 1 =
        2 * (2 ^ (2 * s + 2) * m ^ 2 + 2 ^ (s + 1) * m) + 1 := by ring
    rw [h]
    omega
  refine ⟨rfl,
    m * (2 ^ (s + 1) * m + 1) *
      (2 ^ (2 * s + 3) * m ^ 2 + 2 ^ (s + 2) * m + 1), ?_, ?_⟩
  · exact hmul _ _ (hmul _ _ hm hA) hB
  · have hTA : TWO_ADICITY (s + 2) = s + 4 := by
      simp only [TWO_ADICITY]
    have key : p ^ 4 =
        2 ^ (s + 4) *
          (m * (2 ^ (s + 1) * m + 1) *
            (2 ^ (2 * s + 3) * m ^ 2 + 2 ^ (s + 2) * m + 1)) + 1 := by
      subst hp
      ring
    rw [hTA, key, Nat.add_sub_cancel]

/-- Witness for C7 at `p = 5`, `t = 2`, `m = 1`. -/
theorem two_adicity_spec_witness :
    2 ≤ 2 ∧ 1 % 2 = 1 ∧ 5 = 2 ^ 2 * 1 + 1 ∧
    (TWO_ADICITY 2 = 2 + 2 ∧
      ∃ k, k % 2 = 1 ∧ 5 ^ 4 - 1 = 2 ^ TWO_ADICITY 2 * k) :=
  ⟨by decide, by decide, by decide,
    two_adicity_spec 5 2 1 (by decide) (by decide) (by decide)⟩

/-- Claim C10: division on the quartic extension is `a / b = a * inverse(b)`:
when `b` is non-zero (over a well-formed configuration) the result satisfies
`(a / b) * b = a`, but when `b` is the zero element the division operator has
no value (it unwraps the absent inverse), so the zero-divisor branch is safe
only under the precondition `b ≠ ZERO`. -/
theorem div_spec {F : Type} [Field F] [DecidableEq F] (W r : F)
    (hr4 : r ^ 4 = 1) (hr1 : r ≠ 1) (hr2 : r ^ 2 ≠ 1)
    (a b : QuarticExtension F) (hb : b ≠ ZERO)
    (hnorm : (a_pow_r W r b).c0 ≠ 0) :
    (∃ c, div W r a b = some c ∧ mul W c b = a) ∧
    div W r a (ZERO : QuarticExtension F) = none := by
  constructor
  · refine ⟨mul W a (scalar_mul (a_pow_r_minus_1 W r b) ((a_pow_r W r b).c0)⁻¹),
      ?_, ?_⟩
    · rw [div, try_inverse, if_neg hb]
      rfl
    · have hinv : mul W b
          (scalar_mul (a_pow_r_minus_1 W r b) ((a_pow_r W r b).c0)⁻¹) = ONE :=
        try_inverse_correctQ W r b hr4 hr1 hr2 hnorm
      rw [mul_assocQ, mul_commQ W _ b, hinv, mul_oneQ]
  · rw [div, try_inverse, if_pos rfl]
    rfl

/-- Witness for C10 at `F = ZMod 5`, `W = 2`, `r = 2`, `a = [0,1,2,3]`,
`b = [1,1,0,0]`. -/
theorem div_spec_witness :
    (2 : ZMod 5) ^ 4 = 1 ∧ (2 : ZMod 5) ≠ 1 ∧ (2 : ZMod 5) ^ 2 ≠ 1 ∧
    (⟨1, 1, 0, 0⟩ : QuarticExtension (ZMod 5)) ≠ ZERO ∧
    (a_pow_r (2 : ZMod 5) 2 ⟨1, 1, 0, 0⟩).c0 ≠ 0 ∧
    ((∃ c, div (2 : ZMod 5) 2 ⟨0, 1, 2, 3⟩ ⟨1, 1, 0, 0⟩ = some c ∧
        mul 2 c ⟨1, 1, 0, 0⟩ = ⟨0, 1, 2, 3⟩) ∧
      div (2 : ZMod 5) 2 ⟨0, 1, 2, 3⟩ ZERO = none) :=
  ⟨by decide, by decide, by decide, by decide, by decide,
    div_spec 2 2 (by decide) (by decide) (by decide) ⟨0, 1, 2, 3⟩ ⟨1, 1, 0, 0⟩
      (by decide) (by decide)⟩

/-- Counterexample to claim C9: under the multiplication-counting
interpretation, the implemented `Mul::mul` body performs 19 base-field
multiplications, whereas the Karatsuba-style reformulation documented in its
comment performs 13 (the 10 generic products of its first stage plus 3
folding multiplications by `W`); the implementation therefore does not
compute the product via the reduced-count reformulation. -/
theorem mul_not_karatsuba_count :
    mulOpCount = 19 ∧ karatsubaStage1OpCount = 10 ∧ karatsubaOpCount = 13 ∧
    mulOpCount ≠ karatsubaOpCount :=
  ⟨rfl, rfl, rfl, by decide⟩

/-- Claim C9 (amended): the degree-4 extension multiplication implements the
schoolbook formula, performing 19 base-field multiplications (as the code's
own `19 mul, 12 add` note records); the Karatsuba-style reformulation that
reduces the 16 generic products to 10 generic products plus folding terms is
documented in the `Mul::mul` comment block and is extensionally equal to the
implemented formula, but it is not the formula the code computes. -/
theorem mul_karatsuba_relation {F : Type} [Field F] (W : F)
    (a b : QuarticExtension F) :
    mulOpCount = 19 ∧ karatsubaStage1OpCount = 10 ∧ karatsubaOpCount = 13 ∧
    mul W a b = karatsubaMul W a b := by
  refine ⟨rfl, rfl, rfl, ?_⟩
  ext <;>
    (simp only [mul, karatsubaMul, karatsubaStage1, karatsubaStage2]; ring)

end QuarticExtension

end Plonky2
